import Mathlib

/-!
Verification of the pyomo `contrib/mpc` time-indexed data transfer,
bounded-noise, and MHE constraint-augmentation core.

Pure functions of the Python source are embedded as Lean functions over `ℚ`
(time points and variable values are numeric); stateful model mutation is
embedded as explicit state passing over `MState := VarId → ℚ → ℚ`; fallible
code returns `Except`.

The modules `pyomo/contrib/mpc/modeling/noise.py`,
`pyomo/contrib/mpc/modeling/mhe_constructor.py` and
`pyomo/contrib/mpc/interfaces/copy_values.py` are not present in the source
tree (only their tests and callers are); their definitions below are modelled
from the specification, as flagged by their doc comments.  Everything else is
translated from `pyomo/contrib/mpc/interfaces/var_linker.py` and
`pyomo/contrib/mpc/interfaces/load_data.py`.
-/

namespace PyomoMPC

/-! ## Bounded noise sampler (`pyomo/contrib/mpc/modeling/noise.py`) -/

/-- Modelled from the spec: `noise.py` is missing from src; §4.1 names the
bound-violation policies `DISCARD`, `PUSH`, `FAIL` of `NoiseBoundOption`. -/
inductive NoiseBoundOption where
  | DISCARD
  | PUSH
  | FAIL
deriving DecidableEq

/-- Modelled from the spec: §7 distinguishes a max-discard error
(`MaxDiscardError`, "Max number of discards") from a bound-violation error
("Applying noise caused a bound to be violated"). -/
inductive NoiseError where
  | maxDiscard
  | boundViolation
deriving DecidableEq

/-- Modelled from the spec: `get_violated_bounds(val, bounds)` (noise.py is
missing from src).  Returns the violated bound and a direction flag:
`(lower, 1)` if `val < lower`, `(upper, -1)` if `val > upper`, `(none, 0)`
otherwise; the lower bound is checked first.  A missing bound (`none`) is
never violated. -/
def get_violated_bounds (val : ℚ) (b : Option ℚ × Option ℚ) : Option ℚ × Int :=
  match b with
  | (some lb, some ub) =>
    if val < lb then (some lb, 1)
    else if ub < val then (some ub, -1)
    else (none, 0)
  | (some lb, none) => if val < lb then (some lb, 1) else (none, 0)
  | (none, some ub) => if ub < val then (some ub, -1) else (none, 0)
  | (none, none) => (none, 0)

/-- Modelled from the spec: the injected sampling function §4.1/§9.  The
shared pseudo-random generator is made explicit as a draw counter: the
function receives the nominal value, the spread parameter, and the index of
the draw, and each draw increments the counter. -/
abbrev NoiseFn := ℚ → ℚ → ℕ → ℚ

/-- Modelled from the spec: the redraw loop of policy `DISCARD` (§4.1).
`n` is the number of draws still allowed (`max_number_discards + 1` at the
top level); a violated draw is discarded and redrawn; when no draws remain
the call fails with the max-discard error. -/
def drawDiscard (fn : NoiseFn) (v p : ℚ) (b : Option ℚ × Option ℚ) :
    ℕ → ℕ → Except NoiseError (ℚ × ℕ)
  | 0, _ => .error .maxDiscard
  | n + 1, c =>
    let cand := fn v p c
    if (get_violated_bounds cand b).2 = 0 then .ok (cand, c + 1)
    else drawDiscard fn v p b n (c + 1)

/-- Modelled from the spec: policy `PUSH` clamps a violating candidate to the
violated bound pushed inside by `bound_push` (§4.1); a candidate violating no
bound is accepted unchanged. -/
def pushValue (cand : ℚ) (b : Option ℚ × Option ℚ) (push : ℚ) : ℚ :=
  let vb := get_violated_bounds cand b
  if vb.2 = 1 then vb.1.getD 0 + push
  else if vb.2 = -1 then vb.1.getD 0 - push
  else cand

/-- Modelled from the spec: processing of a single `(value, param, bound)`
triple (§4.1).  `DISCARD` redraws up to `maxD` times; `PUSH` clamps and
accepts immediately with no redraw; `FAIL` fails immediately on a violation.
Returns the accepted value and the advanced draw counter. -/
def applyNoiseOne (fn : NoiseFn) (opt : NoiseBoundOption) (maxD : ℕ)
    (push : ℚ) (c : ℕ) (v p : ℚ) (b : Option ℚ × Option ℚ) :
    Except NoiseError (ℚ × ℕ) :=
  match opt with
  | .DISCARD => drawDiscard fn v p b (maxD + 1) c
  | .PUSH => .ok (pushValue (fn v p c) b push, c + 1)
  | .FAIL =>
    let cand := fn v p c
    if (get_violated_bounds cand b).2 = 0 then .ok (cand, c + 1)
    else .error .boundViolation

/-- Modelled from the spec: `apply_noise_with_bounds(values, noise_params,
noise_fn, bounds, policy, max_discards, bound_push)` (§4.1).  The triples are
processed independently in order (no shared retry budget); the first error is
fatal to the whole call.  As in the Python `zip` of the three lists, a length
mismatch truncates to the shortest list. -/
def apply_noise_with_bounds (fn : NoiseFn) (opt : NoiseBoundOption)
    (maxD : ℕ) (push : ℚ) :
    List ℚ → List ℚ → List (Option ℚ × Option ℚ) → ℕ →
    Except NoiseError (List ℚ × ℕ)
  | [], _, _, c => .ok ([], c)
  | _ :: _, [], _, c => .ok ([], c)
  | _ :: _, _ :: _, [], c => .ok ([], c)
  | v :: vs, p :: ps, b :: bs, c =>
    match applyNoiseOne fn opt maxD push c v p b with
    | .error e => .error e
    | .ok (w, c1) =>
      match apply_noise_with_bounds fn opt maxD push vs ps bs c1 with
      | .error e => .error e
      | .ok (ws, c2) => .ok (w :: ws, c2)

example :
    get_violated_bounds (mkRat 3 2) (some 1, some 2) = (none, 0) := by decide

example :
    get_violated_bounds (mkRat 4 5) (some 1, some 2) = (some 1, 1) := by decide

example :
    get_violated_bounds (mkRat 5 2) (some 1, some 2) = (some 2, -1) := by decide

/-! ## Sample-point partitioning
(`curr_sample_point` of `pyomo/contrib/mpc/modeling/mhe_constructor.py`) -/

/-- Modelled from the spec: `mhe_constructor.py` is missing from src; §4.4
says `curr_sample_point(t, sample_points)` returns the smallest sample point
`>= t` (nearest point at or after `t`); behavior past the last sample point
is left open, rendered here as `none`. -/
def curr_sample_point (t : ℚ) (sample_points : List ℚ) : Option ℚ :=
  (sample_points.filter (fun s => decide (t ≤ s))).min?

example : curr_sample_point 0 [0, 2, 4] = some 0 := by decide

example : curr_sample_point (mkRat 3 2) [0, 2, 4] = some 2 := by decide

example : curr_sample_point 2 [0, 2, 4] = some 2 := by decide

example : curr_sample_point (mkRat 39 10) [0, 2, 4] = some 4 := by decide

/-! ## MHE constraint augmentation
(`pyomo/contrib/mpc/modeling/mhe_constructor.py`, missing from src) -/

/-- Modelled from the spec: the data of one constraint of a time-indexed
`Constraint` at a fixed time point, as consumed by the augmentation
functions — a body expression (rendered as a function of a variable
valuation of type `σ`), optional lower and upper bounds, and an activation
flag.  The constraint is an equality when both bounds are present and
equal. -/
structure ConData (σ : Type) where
  body : σ → ℚ
  lower : Option ℚ
  upper : Option ℚ
  active : Bool

instance {σ : Type} : Inhabited (ConData σ) :=
  ⟨{ body := fun _ => 0, lower := none, upper := none, active := true }⟩

/-- Modelled from the spec: a constraint is an equality when its lower and
upper bounds coincide (§4.5 validation step). -/
def ConData.isEquality {σ : Type} (c : ConData σ) : Bool :=
  match c.lower, c.upper with
  | some a, some b => decide (a = b)
  | _, _ => false

/-- Residual of an equality constraint: body minus the common bound. -/
def ConData.residual {σ : Type} (c : ConData σ) (x : σ) : ℚ :=
  c.body x - c.upper.getD 0

/-- Modelled from the spec: one disturbed constraint produced by
`construct_disturbed_model_constraints` at `(i, t)` — the original
constraint's body plus the disturbance variable indexed by
`(i, curr_sample_point t)`, equated to the original right-hand side
(§3 "Disturbance component triple", §4.5). -/
structure DistCon (σ : Type) where
  body : σ → ℚ
  distIndex : ℕ × ℚ
  rhs : ℚ

/-- Residual of a disturbed constraint under a variable valuation `x` and a
disturbance-variable valuation `d`. -/
def DistCon.residual {σ : Type} (dc : DistCon σ) (x : σ) (d : ℕ × ℚ → ℚ) : ℚ :=
  dc.body x + d dc.distIndex - dc.rhs

/-- Modelled from the spec: `construct_disturbed_model_constraints(fine_time,
sample_points, constraints)` (§4.5).  Every targeted constraint must be an
equality at every fine time point, otherwise the whole call aborts with the
error "Not an equality constraint".  On success it returns the index set
`{0, ..., n-1}`, the disturbance variables initialized to `0.0` at each
`(i, j)`, and the family of disturbed constraints. -/
def construct_disturbed_model_constraints {σ : Type} (time spts : List ℚ)
    (cons : List (ℚ → ConData σ)) :
    Except String (List ℕ × (ℕ × ℚ → ℚ) × (ℕ → ℚ → DistCon σ)) :=
  if cons.all (fun c => time.all (fun t => (c t).isEquality)) then
    Except.ok
      (List.range cons.length,
       fun _ => 0,
       fun i t =>
         let c := (cons.getD i default) t
         { body := c.body,
           distIndex := (i, (curr_sample_point t spts).getD 0),
           rhs := c.upper.getD 0 })
  else Except.error "Not an equality constraint"

/-- Modelled from the spec:
`activate_disturbed_constraints_based_on_original_constraints` (§4.5).  The
state after the pass is returned explicitly: the first component maps `(i, t)`
to the activation flag of the disturbed constraint (constructed active,
deactivated exactly where the original constraint is inactive), the second
maps `(i, j)` to whether the disturbance variable is fixed to `0` (fixed
exactly when every fine time point mapping to sample point `j` has the
original constraint inactive). -/
def activate_disturbed_constraints_based_on_original_constraints {σ : Type}
    (time spts : List ℚ) (cons : List (ℚ → ConData σ)) :
    (ℕ → ℚ → Bool) × (ℕ → ℚ → Bool) :=
  (fun i t => ((cons.getD i default) t).active,
   fun i j =>
     time.all (fun t =>
       !(decide ((curr_sample_point t spts).getD 0 = j))
         || !((cons.getD i default) t).active))

/-! ## Dynamic variable linker
(`pyomo/contrib/mpc/interfaces/var_linker.py`, in src) -/

/-- Stable identity of a time-indexed variable reference (a `ComponentMap`
key in the source). -/
abbrev VarId := ℕ

/-- A model instance's mutable values: each variable holds a scalar value at
each time point.  `var[t].set_value(val)` becomes a functional update. -/
abbrev MState := VarId → ℚ → ℚ

/-- One `tvar[t_t].set_value(val)` step. -/
def setVarValue (st : MState) (v : VarId) (t val : ℚ) : MState :=
  fun w u => if w = v ∧ u = t then val else st w u

/-- The inner loop `for t_t, val in zip(t_target, val_list):
tvar[t_t].set_value(val)` of `load_data_to_target_variables_at_time`. -/
def setVarValues (st : MState) (v : VarId) (tvs : List (ℚ × ℚ)) : MState :=
  tvs.foldl (fun s tv => setVarValue s v tv.1 tv.2) st

/-- `DynamicVarLinker.extract_data_from_source_variables_at_time`
(var_linker.py lines 80-85): builds the `ComponentMap` sending each source
variable to `[var[t].value for t in t_source]`.  The `ComponentMap` is
rendered as a total lookup function; only keys in `source_variables` are
ever consulted by the loader. -/
def extract_data_from_source_variables_at_time (st : MState)
    (t_source : List ℚ) : VarId → List ℚ :=
  fun v => t_source.map (st v)

/-- The broadcast step of `load_data_to_target_variables_at_time`
(var_linker.py lines 116-117): `if len(val_list) == 1: val_list = val_list *
n_points`. -/
def broadcastList (vl : List ℚ) (n : ℕ) : List ℚ :=
  if vl.length = 1 then (List.replicate n vl).flatten else vl

/-- Writes a list of (variable, value-list) entries into the state, each
entry zipped against the time list — the common shape of the loading loops
in var_linker.py and load_data.py. -/
def writeEntries (st : MState) (ents : List (VarId × List ℚ))
    (time : List ℚ) : MState :=
  ents.foldl (fun s ent => setVarValues s ent.1 (time.zip ent.2)) st

/-- `DynamicVarLinker.load_data_to_target_variables_at_time` (var_linker.py
lines 112-119): for each `(svar, tvar)` pair, look up `data[svar]`,
broadcast it if it has length one, and write it to `tvar` at the points of
`t_target` in order (`zip` truncates on a length mismatch). -/
def load_data_to_target_variables_at_time (st : MState)
    (svars tvars : List VarId) (data : VarId → List ℚ)
    (t_target : List ℚ) : MState :=
  (svars.zip tvars).foldl
    (fun s p => setVarValues s p.2
      (t_target.zip (broadcastList (data p.1) t_target.length)))
    st

/-- Modelled from the spec: `copy_values_at_time`
(`pyomo/contrib/mpc/interfaces/copy_values.py`) is missing from src; per
§4.3, `DynamicVarLinker.transfer` performs extract followed by load, with no
noise. -/
def transfer (st : MState) (svars tvars : List VarId)
    (t_source t_target : List ℚ) : MState :=
  load_data_to_target_variables_at_time st svars tvars
    (extract_data_from_source_variables_at_time st t_source) t_target

/-- Functional update of the extracted-data map, used to model overwriting a
`ComponentMap` entry. -/
def updateData (data : VarId → List ℚ) (v : VarId) (vl : List ℚ) :
    VarId → List ℚ :=
  fun w => if w = v then vl else data w

/-- `DynamicVarLinker.apply_noise_to_extracted_data` (var_linker.py lines
87-110): for the `idx`-th source variable, apply `apply_noise_with_bounds`
to its value list with the per-variable noise parameter and bound pair
repeated once per value; the draw counter is threaded through the variables
in order.  The list argument is `source_variables` zipped with the noise
parameters and bound list. -/
def apply_noise_to_extracted_data (fn : NoiseFn) (opt : NoiseBoundOption)
    (maxD : ℕ) (push : ℚ) :
    List (VarId × ℚ × (Option ℚ × Option ℚ)) → (VarId → List ℚ) → ℕ →
    Except NoiseError ((VarId → List ℚ) × ℕ)
  | [], data, c => .ok (data, c)
  | (v, pb) :: rest, data, c =>
    match apply_noise_with_bounds fn opt maxD push (data v)
        (List.replicate (data v).length pb.1)
        (List.replicate (data v).length pb.2) c with
    | .error e => .error e
    | .ok (nl, c1) =>
      apply_noise_to_extracted_data fn opt maxD push rest
        (updateData data v nl) c1

/-- Errors of `DynamicVarLinker.transfer_with_noise`: the time-point length
mismatch `ValueError` (var_linker.py lines 132-137) or an error propagated
from the noise sampler. -/
inductive TransferError where
  | configError
  | noiseError (e : NoiseError)
deriving DecidableEq

/-- `DynamicVarLinker.transfer_with_noise` (var_linker.py lines 121-146):
requires the two time lists to have equal length or the source to have
length one, then extracts, applies noise (with the source defaults
`bound_option=DISCARD`, `max_number_discards=5`, `bound_push=0.0`), and
loads into the targets.  The draw counter `c` makes the shared random
generator explicit. -/
def transfer_with_noise (st : MState) (svars tvars : List VarId)
    (noise_params : List ℚ) (fn : NoiseFn)
    (bound_list : List (Option ℚ × Option ℚ))
    (t_source t_target : List ℚ) (c : ℕ) :
    Except TransferError (MState × ℕ) :=
  if t_source.length ≠ t_target.length ∧ t_source.length ≠ 1 then
    .error .configError
  else
    match apply_noise_to_extracted_data fn .DISCARD 5 0
        (svars.zip (noise_params.zip bound_list))
        (extract_data_from_source_variables_at_time st t_source) c with
    | .error e => .error (.noiseError e)
    | .ok (nd, c1) =>
      .ok (load_data_to_target_variables_at_time st svars tvars nd t_target,
           c1)

/-- Projects the state out of a `transfer_with_noise` result, keeping the
pre-call state on error (an error is raised before any mutation). -/
def okState (st : MState) (r : Except TransferError (MState × ℕ)) : MState :=
  match r with
  | .ok p => p.1
  | .error _ => st

/-! ## Series loading (`pyomo/contrib/mpc/interfaces/load_data.py`, in src) -/

/-- The series data container's access contract (§6): `get_data()` is the
`entries` association list, `get_time_points()` is `timePoints`. -/
structure TimeSeriesData where
  entries : List (VarId × List ℚ)
  timePoints : List ℚ

/-- `load_data_from_series(data, model, time)` (load_data.py lines 43-64):
raises "Cannot load time series data when time sets have different lengths"
when `list(time) != data.get_time_points()`, else sets each named variable
at each time point to the zipped series value.  `model.find_component` is
rendered as the identity on variable ids (every id names a variable of the
model). -/
def load_data_from_series (data : TimeSeriesData) (st : MState)
    (time : List ℚ) : Except String MState :=
  if time ≠ data.timePoints then
    Except.error "Cannot load time series data when time sets have different lengths"
  else
    Except.ok (writeEntries st data.entries time)

/-! ## Helper lemmas about state writes -/

lemma setVarValues_cons (s : MState) (v : VarId) (tv : ℚ × ℚ)
    (rest : List (ℚ × ℚ)) :
    setVarValues s v (tv :: rest)
      = setVarValues (setVarValue s v tv.1 tv.2) v rest := rfl

lemma setVarValue_ne (s : MState) (v : VarId) (t val : ℚ) (w : VarId)
    (u : ℚ) (h : ¬(w = v ∧ u = t)) :
    setVarValue s v t val w u = s w u := by
  simp only [setVarValue, if_neg h]

lemma setVarValues_ne (s : MState) (v : VarId) (tvs : List (ℚ × ℚ))
    (w : VarId) (u : ℚ) (hw : w ≠ v) :
    setVarValues s v tvs w u = s w u := by
  induction tvs generalizing s with
  | nil => rfl
  | cons tv rest ih =>
    rw [setVarValues_cons, ih]
    exact setVarValue_ne _ _ _ _ _ _ (fun h => hw h.1)

lemma setVarValues_time_ne (s : MState) (v : VarId) (tvs : List (ℚ × ℚ))
    (w : VarId) (u : ℚ) (hu : ∀ tv ∈ tvs, tv.1 ≠ u) :
    setVarValues s v tvs w u = s w u := by
  induction tvs generalizing s with
  | nil => rfl
  | cons tv rest ih =>
    rw [setVarValues_cons, ih _ (fun p hp => hu p (List.mem_cons_of_mem _ hp))]
    exact setVarValue_ne _ _ _ _ _ _
      (fun h => hu tv (List.mem_cons_self _ _) h.2.symm)

lemma setVarValues_replicate (s : MState) (v : VarId) (tt : List ℚ) (n : ℕ)
    (x : ℚ) (u : ℚ) (hu : u ∈ tt) (hn : tt.length ≤ n) :
    setVarValues s v (tt.zip (List.replicate n x)) v u = x := by
  induction tt generalizing s n with
  | nil => cases hu
  | cons a rest ih =>
    cases n with
    | zero => simp at hn
    | succ m =>
      rw [List.replicate_succ, List.zip_cons_cons, setVarValues_cons]
      by_cases hmem : u ∈ rest
      · exact ih _ _ hmem (Nat.le_of_succ_le_succ hn)
      · have hua : u = a := by
          rcases List.mem_cons.mp hu with h | h
          · exact h
          · exact absurd h hmem
        rw [setVarValues_time_ne]
        · subst hua
          simp [setVarValue]
        · intro tv htv he
          exact hmem (he ▸ (List.of_mem_zip htv).1)

lemma setVarValues_zip_get (s : MState) (v : VarId) (tt vl : List ℚ)
    (hnd : tt.Nodup) (j : ℕ) (hj : j < tt.length) :
    setVarValues s v (tt.zip vl) v (tt.get ⟨j, hj⟩)
      = if hq : j < vl.length then vl.get ⟨j, hq⟩
        else s v (tt.get ⟨j, hj⟩) := by
  induction tt generalizing vl s j with
  | nil => simp at hj
  | cons a rest ih =>
    cases vl with
    | nil =>
      simp only [List.zip_nil_right]
      rw [dif_neg (by simp)]
      rfl
    | cons x vtl =>
      rw [List.zip_cons_cons, setVarValues_cons]
      cases j with
      | zero =>
        have ha : a ∉ rest := (List.nodup_cons.mp hnd).1
        have hget0 : (a :: rest).get ⟨0, hj⟩ = a := rfl
        rw [hget0, setVarValues_time_ne]
        · rw [dif_pos (by simp)]
          simp [setVarValue, List.get]
        · intro tv htv he
          exact ha (he ▸ (List.of_mem_zip htv).1)
      | succ k =>
        have hk : k < rest.length := Nat.lt_of_succ_lt_succ hj
        have hget : (a :: rest).get ⟨k + 1, hj⟩ = rest.get ⟨k, hk⟩ := rfl
        rw [hget, ih _ _ (List.nodup_cons.mp hnd).2 k hk]
        have ha : a ∉ rest := (List.nodup_cons.mp hnd).1
        have hne : rest.get ⟨k, hk⟩ ≠ a := by
          intro he
          exact ha (he ▸ List.get_mem rest k hk)
        by_cases hq : k < vtl.length
        · rw [dif_pos hq, dif_pos (by simpa using Nat.succ_lt_succ hq)]
          rfl
        · rw [dif_neg hq, dif_neg (by simpa using fun h => hq (Nat.lt_of_succ_lt_succ h))]
          exact setVarValue_ne _ _ _ _ _ _ (fun h => hne h.2)

lemma writeEntries_cons (st : MState) (e : VarId × List ℚ)
    (rest : List (VarId × List ℚ)) (time : List ℚ) :
    writeEntries st (e :: rest) time
      = writeEntries (setVarValues st e.1 (time.zip e.2)) rest time := rfl

lemma writeEntries_var_ne (st : MState) (ents : List (VarId × List ℚ))
    (time : List ℚ) (v : VarId) (u : ℚ) (hv : ∀ ent ∈ ents, ent.1 ≠ v) :
    writeEntries st ents time v u = st v u := by
  induction ents generalizing st with
  | nil => rfl
  | cons e rest ih =>
    rw [writeEntries_cons, ih _ (fun p hp => hv p (List.mem_cons_of_mem _ hp))]
    exact setVarValues_ne _ _ _ _ _
      (Ne.symm (hv e (List.mem_cons_self _ _)))

lemma writeEntries_time_ne (st : MState) (ents : List (VarId × List ℚ))
    (time : List ℚ) (v : VarId) (u : ℚ) (hu : u ∉ time) :
    writeEntries st ents time v u = st v u := by
  induction ents generalizing st with
  | nil => rfl
  | cons e rest ih =>
    rw [writeEntries_cons, ih]
    exact setVarValues_time_ne _ _ _ _ _
      (fun tv htv he => hu (he ▸ (List.of_mem_zip htv).1))

lemma writeEntries_get (st : MState) (ents : List (VarId × List ℚ))
    (time : List ℚ) (hnd : (ents.map Prod.fst).Nodup) (hndt : time.Nodup)
    (ent : VarId × List ℚ) (hent : ent ∈ ents) (j : ℕ)
    (hj : j < time.length) :
    writeEntries st ents time ent.1 (time.get ⟨j, hj⟩)
      = if hq : j < ent.2.length then ent.2.get ⟨j, hq⟩
        else st ent.1 (time.get ⟨j, hj⟩) := by
  induction ents generalizing st with
  | nil => cases hent
  | cons e rest ih =>
    rw [writeEntries_cons]
    have hkey : e.1 ∉ rest.map Prod.fst := by
      simpa using (List.nodup_cons.mp hnd).1
    rcases List.mem_cons.mp hent with he | hmem
    · subst he
      rw [writeEntries_var_ne]
      · exact setVarValues_zip_get _ _ _ _ hndt j hj
      · intro p hp he
        exact hkey (he ▸ List.mem_map_of_mem Prod.fst hp)
    · have hne : e.1 ≠ ent.1 := by
        intro he
        exact hkey (he ▸ List.mem_map_of_mem Prod.fst hmem)
      rw [ih _ (List.nodup_cons.mp hnd).2 hmem]
      by_cases hq : j < ent.2.length
      · rw [dif_pos hq, dif_pos hq]
      · rw [dif_neg hq, dif_neg hq]
        exact setVarValues_ne _ _ _ _ _ (fun h => hne h.symm)

lemma writeEntries_get_replicate (st : MState)
    (ents : List (VarId × List ℚ)) (time : List ℚ)
    (hnd : (ents.map Prod.fst).Nodup) (ent : VarId × List ℚ)
    (hent : ent ∈ ents) (x : ℚ) (n : ℕ) (hx : ent.2 = List.replicate n x)
    (hn : time.length ≤ n) (u : ℚ) (hu : u ∈ time) :
    writeEntries st ents time ent.1 u = x := by
  induction ents generalizing st with
  | nil => cases hent
  | cons e rest ih =>
    rw [writeEntries_cons]
    have hkey : e.1 ∉ rest.map Prod.fst := by
      simpa using (List.nodup_cons.mp hnd).1
    rcases List.mem_cons.mp hent with he | hmem
    · subst he
      rw [writeEntries_var_ne]
      · rw [hx]
        exact setVarValues_replicate _ _ _ _ _ _ hu hn
      · intro p hp he
        exact hkey (he ▸ List.mem_map_of_mem Prod.fst hp)
    · exact ih _ (List.nodup_cons.mp hnd).2 hmem

lemma load_eq_writeEntries (st : MState) (svars tvars : List VarId)
    (data : VarId → List ℚ) (tt : List ℚ) :
    load_data_to_target_variables_at_time st svars tvars data tt
      = writeEntries st
          ((svars.zip tvars).map
            (fun p => (p.2, broadcastList (data p.1) tt.length)))
          tt := by
  rw [writeEntries, List.foldl_map]
  rfl

lemma broadcastList_self (vl : List ℚ) (n : ℕ) (h : vl.length = n) :
    broadcastList vl n = vl := by
  rw [broadcastList]
  by_cases h1 : vl.length = 1
  · rw [if_pos h1, ← h, h1]
    simp
  · rw [if_neg h1]

/-- C7: for every `DynamicVarLinker`, when the extracted value list for a
source reference has length 1 and the target time list has `n` points,
loading broadcasts that single value by repetition, so a transfer from the
single source time point `t0` into the target time points leaves each target
variable with the source's value at `t0` at every target time point. -/
theorem transfer_broadcast_law (st : MState) (svars tvars : List VarId)
    (t0 : ℚ) (tt : List ℚ) (hlen : svars.length = tvars.length)
    (hnd : tvars.Nodup) (i : ℕ) (hi : i < tvars.length) (t : ℚ)
    (ht : t ∈ tt) :
    transfer st svars tvars [t0] tt (tvars.get ⟨i, hi⟩) t
      = st (svars.get ⟨i, hlen.symm ▸ hi⟩) t0 := by
  have hi' : i < svars.length := hlen.symm ▸ hi
  have hzip : i < (svars.zip tvars).length := by
    rw [List.length_zip, hlen]
    simpa using hi
  rw [transfer, load_eq_writeEntries]
  set f := fun p : VarId × VarId =>
    (p.2, broadcastList
      (extract_data_from_source_variables_at_time st [t0] p.1)
      tt.length) with hf
  have hkeys : (((svars.zip tvars).map f).map Prod.fst) = tvars := by
    rw [List.map_map]
    have h2 : (Prod.fst ∘ f) = Prod.snd := rfl
    rw [h2, List.map_snd_zip _ _ (le_of_eq hlen.symm)]
  have hmapi : i < ((svars.zip tvars).map f).length := by simpa using hzip
  have hent : ((svars.zip tvars).map f).get ⟨i, hmapi⟩
      = (tvars.get ⟨i, hi⟩,
         List.replicate tt.length (st (svars.get ⟨i, hi'⟩) t0)) := by
    simp [hf, List.get_eq_getElem, List.getElem_map, List.getElem_zip,
      extract_data_from_source_variables_at_time, broadcastList]
  have hres := writeEntries_get_replicate st ((svars.zip tvars).map f) tt
    (by rw [hkeys]; exact hnd)
    (((svars.zip tvars).map f).get ⟨i, hmapi⟩)
    (List.get_mem _ i hmapi)
    (st (svars.get ⟨i, hi'⟩) t0) tt.length
    (by rw [hent]) le_rfl t ht
  rw [hent] at hres
  exact hres

/-- C8: `transfer` and `transfer_with_noise` never mutate a variable that is
not a target variable, and never mutate any variable at a time point outside
`t_target`; in particular source variables (which are not targets) are never
mutated.  At written points the target value is fully overwritten: in the
one-to-one case it equals the source's value there, independent of the
target's prior value. -/
theorem transfer_frame_discipline (st : MState) (svars tvars : List VarId)
    (ts tt : List ℚ) :
    (∀ v t, v ∉ tvars → transfer st svars tvars ts tt v t = st v t) ∧
    (∀ v t, t ∉ tt → transfer st svars tvars ts tt v t = st v t) ∧
    (∀ noise_params fn bound_list c v t, v ∉ tvars ∨ t ∉ tt →
      okState st (transfer_with_noise st svars tvars noise_params fn
        bound_list ts tt c) v t = st v t) ∧
    (∀ (hnd : tvars.Nodup) (hndt : tt.Nodup)
      (hlen : svars.length = tvars.length) (hts : ts.length = tt.length)
      (i : ℕ) (hi : i < tvars.length) (j : ℕ) (hj : j < tt.length),
      transfer st svars tvars ts tt (tvars.get ⟨i, hi⟩) (tt.get ⟨j, hj⟩)
        = st (svars.get ⟨i, hlen.symm ▸ hi⟩)
            (ts.get ⟨j, hts.symm ▸ hj⟩)) := by
  have hvar : ∀ (data : VarId → List ℚ) v t, v ∉ tvars →
      load_data_to_target_variables_at_time st svars tvars data tt v t
        = st v t := by
    intro data v t hv
    rw [load_eq_writeEntries]
    apply writeEntries_var_ne
    intro ent hent he
    rcases List.mem_map.mp hent with ⟨p, hp, hpe⟩
    apply hv
    rw [← he, ← hpe]
    exact (List.of_mem_zip hp).2
  have htime : ∀ (data : VarId → List ℚ) v t, t ∉ tt →
      load_data_to_target_variables_at_time st svars tvars data tt v t
        = st v t := by
    intro data v t htm
    rw [load_eq_writeEntries]
    exact writeEntries_time_ne _ _ _ _ _ htm
  refine ⟨fun v t hv => hvar _ v t hv, fun v t htm => htime _ v t htm,
    ?_, ?_⟩
  · intro np fn bl c v t hor
    simp only [transfer_with_noise]
    by_cases hcfg : ts.length ≠ tt.length ∧ ts.length ≠ 1
    · rw [if_pos hcfg]
      rfl
    · rw [if_neg hcfg]
      cases hnoise : apply_noise_to_extracted_data fn .DISCARD 5 0
          (svars.zip (np.zip bl))
          (extract_data_from_source_variables_at_time st ts) c with
      | error e => rfl
      | ok p =>
        obtain ⟨nd, c1⟩ := p
        show okState st
          (.ok (load_data_to_target_variables_at_time st svars tvars nd tt,
            c1)) v t = st v t
        rcases hor with hv | htm
        · exact hvar _ v t hv
        · exact htime _ v t htm
  · intro hnd hndt hlen hts i hi j hj
    have hi' : i < svars.length := hlen.symm ▸ hi
    have hj' : j < ts.length := hts.symm ▸ hj
    have hzip : i < (svars.zip tvars).length := by
      rw [List.length_zip, hlen]
      simpa using hi
    rw [transfer, load_eq_writeEntries]
    set f := fun p : VarId × VarId =>
      (p.2, broadcastList
        (extract_data_from_source_variables_at_time st ts p.1) tt.length)
      with hf
    have hkeys : (((svars.zip tvars).map f).map Prod.fst) = tvars := by
      rw [List.map_map]
      have h2 : (Prod.fst ∘ f) = Prod.snd := rfl
      rw [h2, List.map_snd_zip _ _ (le_of_eq hlen.symm)]
    have hmapi : i < ((svars.zip tvars).map f).length := by simpa using hzip
    have hent : ((svars.zip tvars).map f).get ⟨i, hmapi⟩
        = (tvars.get ⟨i, hi⟩, ts.map (st (svars.get ⟨i, hi'⟩))) := by
      simp only [hf, List.get_eq_getElem, List.getElem_map,
        List.getElem_zip, extract_data_from_source_variables_at_time]
      rw [broadcastList_self]
      rw [List.length_map, hts]
    have hres := writeEntries_get st ((svars.zip tvars).map f) tt
      (by rw [hkeys]; exact hnd) hndt
      (((svars.zip tvars).map f).get ⟨i, hmapi⟩)
      (List.get_mem _ i hmapi) j hj
    rw [hent] at hres
    rw [hres, dif_pos (by rw [List.length_map]; exact hj')]
    simp [List.get_eq_getElem, List.getElem_map]

/-- C10: when the extracted value list for a source reference has length
neither 1 nor `len(t_target)`, loading silently writes the first
`min(len(value list), len(t_target))` target time points in order (the `zip`
truncates) and leaves the remaining target time points at their prior
values. -/
theorem load_zip_truncation (st : MState) (svars tvars : List VarId)
    (data : VarId → List ℚ) (tt : List ℚ)
    (hlen : svars.length = tvars.length) (hndv : tvars.Nodup)
    (hndt : tt.Nodup) (i : ℕ) (hi : i < tvars.length)
    (hnot1 : (data (svars.get ⟨i, hlen.symm ▸ hi⟩)).length ≠ 1)
    (j : ℕ) (hj : j < tt.length) :
    load_data_to_target_variables_at_time st svars tvars data tt
        (tvars.get ⟨i, hi⟩) (tt.get ⟨j, hj⟩)
      = if hq : j < (data (svars.get ⟨i, hlen.symm ▸ hi⟩)).length
        then (data (svars.get ⟨i, hlen.symm ▸ hi⟩)).get ⟨j, hq⟩
        else st (tvars.get ⟨i, hi⟩) (tt.get ⟨j, hj⟩) := by
  have hi' : i < svars.length := hlen.symm ▸ hi
  have hzip : i < (svars.zip tvars).length := by
    rw [List.length_zip, hlen]
    simpa using hi
  rw [load_eq_writeEntries]
  set f := fun p : VarId × VarId =>
    (p.2, broadcastList (data p.1) tt.length) with hf
  have hkeys : (((svars.zip tvars).map f).map Prod.fst) = tvars := by
    rw [List.map_map]
    have h2 : (Prod.fst ∘ f) = Prod.snd := rfl
    rw [h2, List.map_snd_zip _ _ (le_of_eq hlen.symm)]
  have hmapi : i < ((svars.zip tvars).map f).length := by simpa using hzip
  have hent : ((svars.zip tvars).map f).get ⟨i, hmapi⟩
      = (tvars.get ⟨i, hi⟩, data (svars.get ⟨i, hi'⟩)) := by
    have hnot1g : (data svars[i]).length ≠ 1 := hnot1
    simp only [hf, List.get_eq_getElem, List.getElem_map, List.getElem_zip,
      broadcastList]
    rw [if_neg hnot1g]
  have hres := writeEntries_get st ((svars.zip tvars).map f) tt
    (by rw [hkeys]; exact hndv) hndt
    (((svars.zip tvars).map f).get ⟨i, hmapi⟩)
    (List.get_mem _ i hmapi) j hj
  rw [hent] at hres
  exact hres

/-- Witness for C7: a transfer of source variable 1 (value 15 at the single
source point 5) into target variable 3 over target points [5, 6, 7]. -/
theorem transfer_broadcast_law_witness :
    transfer (fun v t => (v : ℚ) * 10 + t) [0, 1] [2, 3] [5] [5, 6, 7]
        (([2, 3] : List VarId).get ⟨1, by decide⟩) 6
      = (fun (v : VarId) (t : ℚ) => (v : ℚ) * 10 + t)
          (([0, 1] : List VarId).get ⟨1, by decide⟩) 5 :=
  transfer_broadcast_law (fun v t => (v : ℚ) * 10 + t) [0, 1] [2, 3] 5
    [5, 6, 7] rfl (by decide) 1 (by decide) 6 (by decide)

/-- Witness for C8: neither plain transfer nor noisy transfer touches
variable 9 (not a target) at time 5. -/
theorem transfer_frame_discipline_witness :
    transfer (fun v t => (v : ℚ) + t) [0, 1] [2, 3] [0] [0, 1] 9 5
        = (fun (v : VarId) (t : ℚ) => (v : ℚ) + t) 9 5 ∧
    okState (fun v t => (v : ℚ) + t)
        (transfer_with_noise (fun v t => (v : ℚ) + t) [0, 1] [2, 3] [1, 1]
          (fun v _ _ => v) [(none, none), (none, none)] [0] [0, 1] 0) 9 5
      = (fun (v : VarId) (t : ℚ) => (v : ℚ) + t) 9 5 ∧
    transfer (fun v t => (v : ℚ) + t) [0, 1] [2, 3] [4, 5] [6, 7]
        (([2, 3] : List VarId).get ⟨0, by decide⟩)
        (([6, 7] : List ℚ).get ⟨1, by decide⟩)
      = (fun (v : VarId) (t : ℚ) => (v : ℚ) + t)
          (([0, 1] : List VarId).get ⟨0, by decide⟩)
          (([4, 5] : List ℚ).get ⟨1, by decide⟩) := by
  refine ⟨?_, ?_, ?_⟩
  · exact (transfer_frame_discipline (fun v t => (v : ℚ) + t) [0, 1] [2, 3]
      [0] [0, 1]).1 9 5 (by decide)
  · exact (transfer_frame_discipline (fun v t => (v : ℚ) + t) [0, 1] [2, 3]
      [0] [0, 1]).2.2.1 [1, 1] (fun v _ _ => v)
      [(none, none), (none, none)] 0 9 5 (Or.inl (by decide))
  · exact (transfer_frame_discipline (fun v t => (v : ℚ) + t) [0, 1] [2, 3]
      [4, 5] [6, 7]).2.2.2 (by decide) (by decide) rfl rfl 0 (by decide) 1
      (by decide)

/-- Witness for C10: a value list of length 3 loaded over 2 target points
writes both points; the theorem's conclusion is instantiated at index 1. -/
theorem load_zip_truncation_witness :
    load_data_to_target_variables_at_time (fun v t => (v : ℚ) + t) [0, 1]
        [2, 3] (fun v => if v = 0 then [7, 8, 9] else [4]) [0, 1]
        (([2, 3] : List VarId).get ⟨0, by decide⟩)
        (([0, 1] : List ℚ).get ⟨1, by decide⟩)
      = if hq : 1 < ((fun v : VarId => if v = 0 then ([7, 8, 9] : List ℚ)
            else [4]) (([0, 1] : List VarId).get ⟨0, by decide⟩)).length
        then ((fun v : VarId => if v = 0 then ([7, 8, 9] : List ℚ) else [4])
            (([0, 1] : List VarId).get ⟨0, by decide⟩)).get ⟨1, hq⟩
        else (fun (v : VarId) (t : ℚ) => (v : ℚ) + t)
            (([2, 3] : List VarId).get ⟨0, by decide⟩)
            (([0, 1] : List ℚ).get ⟨1, by decide⟩) :=
  load_zip_truncation (fun v t => (v : ℚ) + t) [0, 1] [2, 3]
    (fun v => if v = 0 then [7, 8, 9] else [4]) [0, 1] rfl (by decide)
    (by decide) 0 (by decide) (by decide) 1 (by decide)

/-- C9 (amended): `load_data_from_series` fails exactly when the time list
differs from the series' time-point list (a length mismatch is a special
case); the error is returned with no variable mutated.  When the lists
agree, every variable named in the series is set at each time point to the
corresponding series value in order, and unnamed variables are untouched. -/
theorem load_series_time_mismatch (data : TimeSeriesData) (st : MState)
    (time : List ℚ) :
    (time ≠ data.timePoints →
      load_data_from_series data st time
        = .error "Cannot load time series data when time sets have different lengths") ∧
    (time = data.timePoints →
      ∃ st1, load_data_from_series data st time = .ok st1 ∧
        (∀ v t, (∀ ent ∈ data.entries, ent.1 ≠ v) → st1 v t = st v t) ∧
        ((data.entries.map Prod.fst).Nodup → time.Nodup →
          ∀ ent ∈ data.entries, ∀ j, ∀ hj : j < time.length,
            st1 ent.1 (time.get ⟨j, hj⟩)
              = if hq : j < ent.2.length then ent.2.get ⟨j, hq⟩
                else st ent.1 (time.get ⟨j, hj⟩))) := by
  constructor
  · intro hne
    simp only [load_data_from_series, if_pos hne]
  · intro heq
    refine ⟨writeEntries st data.entries time, ?_, ?_, ?_⟩
    · simp only [load_data_from_series, if_neg (not_not_intro heq)]
    · intro v t hv
      exact writeEntries_var_ne _ _ _ _ _ hv
    · intro hnd hndt ent hent j hj
      exact writeEntries_get _ _ _ hnd hndt ent hent j hj

/-- Counterexample for C9: the time list [0, 1] and the series time points
[0, 2] have equal length, yet the call fails — list inequality, not a
length mismatch, is the failure condition of the source. -/
theorem load_series_equal_length_counterexample :
    ([(0 : ℚ), 1].length = [(0 : ℚ), 2].length) ∧
    load_data_from_series ⟨[(0, [5, 6])], [0, 2]⟩ (fun _ _ => 0) [0, 1]
      = .error "Cannot load time series data when time sets have different lengths" :=
  ⟨rfl, rfl⟩

/-- Witness for C9: both branches of the amended theorem at concrete
inputs — a mismatched time list fails, a matching one loads. -/
theorem load_series_time_mismatch_witness :
    (load_data_from_series ⟨[(0, [5, 6])], [0, 2]⟩ (fun _ _ => 0) [1]
      = .error "Cannot load time series data when time sets have different lengths") ∧
    (∃ st1, load_data_from_series ⟨[(0, [5, 6])], [0, 2]⟩ (fun _ _ => 0)
        [0, 2] = .ok st1 ∧
      (∀ v t, (∀ ent ∈ [((0 : VarId), [(5 : ℚ), 6])], ent.1 ≠ v) →
        st1 v t = (fun (_ : VarId) (_ : ℚ) => (0 : ℚ)) v t) ∧
      ((([((0 : VarId), [(5 : ℚ), 6])]).map Prod.fst).Nodup →
        ([(0 : ℚ), 2]).Nodup →
        ∀ ent ∈ [((0 : VarId), [(5 : ℚ), 6])], ∀ j,
          ∀ hj : j < ([(0 : ℚ), 2]).length,
          st1 ent.1 (([(0 : ℚ), 2]).get ⟨j, hj⟩)
            = if hq : j < ent.2.length then ent.2.get ⟨j, hq⟩
              else (fun (_ : VarId) (_ : ℚ) => (0 : ℚ)) ent.1
                (([(0 : ℚ), 2]).get ⟨j, hj⟩))) := by
  constructor
  · exact (load_series_time_mismatch ⟨[(0, [5, 6])], [0, 2]⟩ _ [1]).1
      (by decide)
  · exact (load_series_time_mismatch ⟨[(0, [5, 6])], [0, 2]⟩ _ [0, 2]).2 rfl

/-! ## Noise sampler theorems -/

lemma pushValue_eq_of_lt (cand lb ub push : ℚ) (h1 : cand < lb) :
    pushValue cand (some lb, some ub) push = lb + push := by
  simp [pushValue, get_violated_bounds, h1]

lemma pushValue_eq_of_gt (cand lb ub push : ℚ) (h1 : ¬cand < lb)
    (h2 : ub < cand) :
    pushValue cand (some lb, some ub) push = ub - push := by
  simp [pushValue, get_violated_bounds, h1, h2]

lemma pushValue_eq_of_inside (cand lb ub push : ℚ) (h1 : ¬cand < lb)
    (h2 : ¬ub < cand) :
    pushValue cand (some lb, some ub) push = cand := by
  simp [pushValue, get_violated_bounds, h1, h2]

lemma pushValue_mem_bounds (cand lb ub push : ℚ) (hpush : 0 ≤ push)
    (hband : lb + push ≤ ub - push) :
    lb ≤ pushValue cand (some lb, some ub) push ∧
      pushValue cand (some lb, some ub) push ≤ ub := by
  by_cases h1 : cand < lb
  · rw [pushValue_eq_of_lt cand lb ub push h1]
    constructor <;> linarith
  · by_cases h2 : ub < cand
    · rw [pushValue_eq_of_gt cand lb ub push h1 h2]
      constructor <;> linarith
    · rw [pushValue_eq_of_inside cand lb ub push h1 h2]
      constructor <;> linarith

/-- C4 (amended): under policy `PUSH`, each candidate that violates a bound
is clamped to the violated bound pushed inside by `bound_push` and accepted
without redraw; with `0 ≤ bound_push` and `lower + bound_push ≤ upper -
bound_push`, every output value `v` satisfies `lower ≤ v ≤ upper` (a
candidate already inside the bounds but within `bound_push` of a bound is
accepted unclamped, so `lower + bound_push ≤ v` can fail); the output list
preserves the order and count of the inputs and the call never fails. -/
theorem apply_noise_push_within_bounds (fn : NoiseFn) (maxD : ℕ) (push : ℚ)
    (vals params : List ℚ) (bounds : List (Option ℚ × Option ℚ)) (c : ℕ)
    (hp : params.length = vals.length) (hb : bounds.length = vals.length)
    (hpush : 0 ≤ push)
    (hband : ∀ lb ub : ℚ, (some lb, some ub) ∈ bounds →
      lb + push ≤ ub - push) :
    ∃ out, apply_noise_with_bounds fn .PUSH maxD push vals params bounds c
        = .ok (out, c + vals.length) ∧
      out.length = vals.length ∧
      (∀ j, j < vals.length → out.getD j 0
        = pushValue (fn (vals.getD j 0) (params.getD j 0) (c + j))
            (bounds.getD j (none, none)) push) ∧
      (∀ j lb ub, j < vals.length →
        bounds.getD j (none, none) = (some lb, some ub) →
        lb ≤ out.getD j 0 ∧ out.getD j 0 ≤ ub) := by
  induction vals generalizing params bounds c with
  | nil =>
    refine ⟨[], by simp [apply_noise_with_bounds], rfl, ?_, ?_⟩
    · intro j hj
      simp at hj
    · intro j lb ub hj
      simp at hj
  | cons v vs ih =>
    cases params with
    | nil => simp at hp
    | cons p ps =>
      cases bounds with
      | nil => simp at hb
      | cons b bs =>
        have hp2 : ps.length = vs.length := by simpa using hp
        have hb2 : bs.length = vs.length := by simpa using hb
        have hband2 : ∀ lb ub : ℚ, (some lb, some ub) ∈ bs →
            lb + push ≤ ub - push :=
          fun lb ub hm => hband lb ub (List.mem_cons_of_mem _ hm)
        obtain ⟨out2, hok2, hlen2, hval2, hbnd2⟩ :=
          ih ps bs (c + 1) hp2 hb2 hband2
        refine ⟨pushValue (fn v p c) b push :: out2, ?_, by simp [hlen2],
          ?_, ?_⟩
        · have hcount : c + 1 + vs.length = c + (vs.length + 1) := by omega
          simp only [apply_noise_with_bounds, applyNoiseOne, hok2, hcount,
            List.length_cons]
        · intro j hj
          cases j with
          | zero => simp
          | succ k =>
            have hk : k < vs.length := by simpa using hj
            have hc : c + 1 + k = c + (k + 1) := by omega
            simpa [hc] using hval2 k hk
        · intro j lb ub hj hbj
          cases j with
          | zero =>
            simp only [List.getD_cons_zero] at hbj ⊢
            subst hbj
            exact pushValue_mem_bounds _ _ _ _ hpush
              (hband lb ub (List.mem_cons_self _ _))
          | succ k =>
            have hk : k < vs.length := by simpa using hj
            simp only [List.getD_cons_succ] at hbj ⊢
            exact hbnd2 k lb ub hk hbj

/-- Counterexample for C4: with bounds `(0, 10)` and `bound_push = 2`, a
draw of `1` violates no bound and is accepted unclamped, so the output `1`
falls below `lower + bound_push = 2`, contradicting the claimed
`lower + b <= v`. -/
theorem apply_noise_push_counterexample :
    apply_noise_with_bounds (fun _ _ _ => (1 : ℚ)) .PUSH 5 2 [5] [1]
        [(some 0, some 10)] 0 = .ok ([1], 1) ∧
      ¬((0 : ℚ) + 2 ≤ (1 : ℚ)) :=
  ⟨rfl, by norm_num⟩

/-- Witness for C4 (amended) at concrete inputs: a draw of 100 above the
upper bound 10 is clamped to `10 - 1 = 9`, inside the bounds. -/
theorem apply_noise_push_within_bounds_witness :
    ∃ out, apply_noise_with_bounds (fun _ _ _ => (100 : ℚ)) .PUSH 5 1 [5]
        [1] [(some 0, some 10)] 0 = .ok (out, 0 + [(5 : ℚ)].length) ∧
      out.length = [(5 : ℚ)].length ∧
      (∀ j, j < [(5 : ℚ)].length → out.getD j 0
        = pushValue ((fun _ _ _ => (100 : ℚ)) ([(5 : ℚ)].getD j 0)
              ([(1 : ℚ)].getD j 0) (0 + j))
            ([((some 0 : Option ℚ), (some 10 : Option ℚ))].getD j
              (none, none)) 1) ∧
      (∀ j lb ub, j < [(5 : ℚ)].length →
        [((some 0 : Option ℚ), (some 10 : Option ℚ))].getD j (none, none)
          = (some lb, some ub) →
        lb ≤ out.getD j 0 ∧ out.getD j 0 ≤ ub) :=
  apply_noise_push_within_bounds (fun _ _ _ => (100 : ℚ)) 5 1 [5] [1]
    [(some 0, some 10)] 0 rfl rfl (by decide)
    (by
      intro lb ub hmem
      simp only [List.mem_singleton, Prod.mk.injEq, Option.some.injEq]
        at hmem
      obtain ⟨rfl, rfl⟩ := hmem
      norm_num)

lemma drawDiscard_all_violated (fn : NoiseFn) (v p : ℚ)
    (b : Option ℚ × Option ℚ) (n c : ℕ)
    (h : ∀ k, k < n → (get_violated_bounds (fn v p (c + k)) b).2 ≠ 0) :
    drawDiscard fn v p b n c = .error .maxDiscard := by
  induction n generalizing c with
  | zero => rfl
  | succ m ih =>
    have h0 : ¬(get_violated_bounds (fn v p c) b).2 = 0 := by
      simpa using h 0 (Nat.succ_pos m)
    rw [drawDiscard, if_neg h0]
    exact ih (c + 1) (fun k hk => by
      have hx := h (k + 1) (Nat.succ_lt_succ hk)
      have hc : c + (k + 1) = c + 1 + k := by omega
      rwa [hc] at hx)

/-- C5: under policy `DISCARD`, once the values before index `m` have been
accepted (draw counter at `c1`), `max_discards + 1` consecutive violating
draws for the value at index `m` make the whole call fail with the
max-discard error — values after `m` are never processed; with
`max_discards = 0`, a single violated draw suffices. -/
theorem apply_noise_discard_max_fails (fn : NoiseFn) (maxD : ℕ) (push : ℚ)
    (pre ppre : List ℚ) (bpre : List (Option ℚ × Option ℚ))
    (post ppost : List ℚ) (bpost : List (Option ℚ × Option ℚ))
    (v p : ℚ) (b : Option ℚ × Option ℚ) (c c1 : ℕ) (out : List ℚ)
    (hlp : ppre.length = pre.length) (hlb : bpre.length = pre.length)
    (hpre : apply_noise_with_bounds fn .DISCARD maxD push pre ppre bpre c
      = .ok (out, c1))
    (hviol : ∀ k, k ≤ maxD →
      (get_violated_bounds (fn v p (c1 + k)) b).2 ≠ 0) :
    apply_noise_with_bounds fn .DISCARD maxD push (pre ++ v :: post)
      (ppre ++ p :: ppost) (bpre ++ b :: bpost) c
      = .error .maxDiscard := by
  induction pre generalizing ppre bpre c out with
  | nil =>
    have hp0 : ppre = [] := List.length_eq_zero.mp (by simpa using hlp)
    have hb0 : bpre = [] := List.length_eq_zero.mp (by simpa using hlb)
    subst hp0
    subst hb0
    have hc : c1 = c := by
      have := hpre
      simp only [apply_noise_with_bounds, Except.ok.injEq, Prod.mk.injEq]
        at this
      exact this.2.symm
    subst hc
    simp only [List.nil_append, apply_noise_with_bounds, applyNoiseOne]
    rw [drawDiscard_all_violated fn v p b (maxD + 1) c1
      (fun k hk => hviol k (Nat.lt_succ_iff.mp hk))]
  | cons x xs ih =>
    cases ppre with
    | nil => simp at hlp
    | cons y ys =>
      cases bpre with
      | nil => simp at hlb
      | cons z zs =>
        simp only [apply_noise_with_bounds] at hpre
        simp only [List.cons_append, apply_noise_with_bounds]
        cases h1 : applyNoiseOne fn .DISCARD maxD push c x y z with
        | error e =>
          rw [h1] at hpre
          simp at hpre
        | ok w =>
          obtain ⟨w1, cw⟩ := w
          simp only [h1] at hpre ⊢
          cases h2 : apply_noise_with_bounds fn .DISCARD maxD push xs ys zs
              cw with
          | error e =>
            rw [h2] at hpre
            simp at hpre
          | ok q =>
            obtain ⟨outq, cq⟩ := q
            simp only [h2, Except.ok.injEq, Prod.mk.injEq] at hpre
            have hcq : cq = c1 := hpre.2
            subst hcq
            have hres := ih ys zs cw outq (by simpa using hlp)
              (by simpa using hlb) h2
            simp only [List.append_eq]
            simp only [hres]

/-- Witness for C5: the first value (5, in bounds) is accepted; with
`max_discards = 0` the single violating draw (100, above 10) for the middle
value fails the whole three-value call, although a third value follows. -/
theorem apply_noise_discard_max_fails_witness :
    apply_noise_with_bounds (fun _ _ c => if c = 0 then (5 : ℚ) else 100)
        .DISCARD 0 0 ([5] ++ 10 :: [7]) ([1] ++ 1 :: [1])
        ([(some 0, some 10)] ++ (some 0, some 10) :: [(some 0, some 10)]) 0
      = .error .maxDiscard :=
  apply_noise_discard_max_fails (fun _ _ c => if c = 0 then (5 : ℚ) else 100)
    0 0 [5] [1] [(some 0, some 10)] [7] [1] [(some 0, some 10)] 10 1
    (some 0, some 10) 0 1 [5] rfl rfl rfl (by decide)

/-! ## MHE augmentation theorems -/

lemma getD_fun_eq_get {σ : Type} (cons : List (ℚ → ConData σ)) (i : ℕ)
    (hi : i < cons.length) :
    cons.getD i default = cons.get ⟨i, hi⟩ := by
  rw [List.getD_eq_getElem _ _ hi]
  rfl

/-- C1: when every targeted constraint is an equality at every fine time
point, construction succeeds and the disturbed constraint at `(i, t)` has,
for every variable valuation and every disturbance valuation, residual equal
to the original constraint's residual plus the disturbance variable at
`(i, curr_sample_point t)`; with the disturbance fixed at 0 it is satisfied
exactly when the original equality holds. -/
theorem construct_disturbed_constraints_reconstruction {σ : Type}
    (time spts : List ℚ) (cons : List (ℚ → ConData σ))
    (hall : cons.all (fun c => time.all (fun t => (c t).isEquality)) = true)
    (i : ℕ) (hi : i < cons.length) (t : ℚ) (ht : t ∈ time) (r : ℚ)
    (hlow : ((cons.get ⟨i, hi⟩) t).lower = some r)
    (hupp : ((cons.get ⟨i, hi⟩) t).upper = some r) :
    ∃ dc, construct_disturbed_model_constraints time spts cons
        = .ok (List.range cons.length, fun _ => 0, dc) ∧
      (∀ x d, (dc i t).residual x d
          = ((cons.get ⟨i, hi⟩) t).residual x
              + d (i, (curr_sample_point t spts).getD 0)) ∧
      (∀ x, ((dc i t).residual x (fun _ => 0) = 0
          ↔ ((cons.get ⟨i, hi⟩) t).body x = r)) := by
  refine ⟨fun i2 t2 =>
    let c := (cons.getD i2 default) t2
    { body := c.body,
      distIndex := (i2, (curr_sample_point t2 spts).getD 0),
      rhs := c.upper.getD 0 }, ?_, ?_, ?_⟩
  · rw [construct_disturbed_model_constraints, if_pos hall]
  · intro x d
    simp only [DistCon.residual, ConData.residual, getD_fun_eq_get cons i hi,
      hupp, Option.getD_some]
    ring
  · intro x
    simp only [DistCon.residual, getD_fun_eq_get cons i hi, hupp,
      Option.getD_some]
    constructor
    · intro h
      linarith
    · intro h
      linarith

/-- Witness constraint for the MHE scenarios: `v0 + 2*v1 == 10` at every
time point (the shape of `c2` in the repository's test model). -/
def exCon2 : ℚ → ConData (ℕ → ℚ) :=
  fun _ => { body := fun x => x 0 + 2 * x 1, lower := some 10,
             upper := some 10, active := true }

/-- Witness constraint: the inequality `v0 + v1 <= 5` (the shape of `c1` in
the repository's test model), never an equality. -/
def exCon1 : ℚ → ConData (ℕ → ℚ) :=
  fun _ => { body := fun x => x 0 + x 1, lower := none,
             upper := some 5, active := true }

/-- Witness constraint: `v0 + 3*v1 - 15 == 0`, deactivated at time points 1
and 2 (the shape of `c3` in the repository's activation test). -/
def exCon3 : ℚ → ConData (ℕ → ℚ) :=
  fun t => { body := fun x => x 0 + 3 * x 1 - 15, lower := some 0,
             upper := some 0,
             active := !(decide (t = 1) || decide (t = 2)) }

/-- Witness constraint: `v0 + 2*v1 == 10` deactivated at every time point
(the shape of `c2` in the repository's activation test). -/
def exCon2Off : ℚ → ConData (ℕ → ℚ) :=
  fun _ => { body := fun x => x 0 + 2 * x 1, lower := some 10,
             upper := some 10, active := false }

/-- Witness for C1: the disturbed version of `v0 + 2*v1 == 10` over fine
time [0..4] and sample points [0, 2, 4], instantiated at `(0, 1)`. -/
theorem construct_disturbed_constraints_reconstruction_witness :
    ∃ dc, construct_disturbed_model_constraints [0, 1, 2, 3, 4] [0, 2, 4]
        [exCon2] = .ok (List.range [exCon2].length, fun _ => 0, dc) ∧
      (∀ x d, (dc 0 1).residual x d
          = (([exCon2].get ⟨0, by decide⟩) 1).residual x
              + d (0, (curr_sample_point 1 [0, 2, 4]).getD 0)) ∧
      (∀ x, ((dc 0 1).residual x (fun _ => 0) = 0
          ↔ (([exCon2].get ⟨0, by decide⟩) 1).body x = 10)) :=
  construct_disturbed_constraints_reconstruction [0, 1, 2, 3, 4] [0, 2, 4]
    [exCon2] (by decide) 0 (by decide) 1 (by decide) 10 rfl rfl

/-- C3: if some constraint in the list is not an equality at some fine time
point, the whole construction call aborts with the error "Not an equality
constraint" — no result tuple is returned. -/
theorem construct_disturbed_not_equality_error {σ : Type}
    (time spts : List ℚ) (cons : List (ℚ → ConData σ))
    (hbad : ∃ c ∈ cons, ∃ t ∈ time, (c t).isEquality = false) :
    construct_disturbed_model_constraints time spts cons
      = .error "Not an equality constraint" := by
  rw [construct_disturbed_model_constraints, if_neg]
  intro hall
  rcases hbad with ⟨c, hc, t, ht, hfalse⟩
  have h1 := List.all_eq_true.mp hall c hc
  have h2 := List.all_eq_true.mp h1 t ht
  rw [hfalse] at h2
  exact Bool.false_ne_true h2

/-- Witness for C3: the inequality `v0 + v1 <= 5` in the targeted list makes
the whole call abort (the repository test's `[c1, c2]` scenario). -/
theorem construct_disturbed_not_equality_error_witness :
    construct_disturbed_model_constraints [0, 1, 2, 3, 4] [0, 2, 4]
        [exCon1, exCon2] = .error "Not an equality constraint" :=
  construct_disturbed_not_equality_error [0, 1, 2, 3, 4] [0, 2, 4]
    [exCon1, exCon2]
    ⟨exCon1, List.mem_cons_self _ _, 0, by decide, rfl⟩

/-- C2: after the activation pass, the disturbed constraint at `(i, t)` is
active exactly when the original constraint at `(i, t)` is active (inactive
where the original is inactive, active elsewhere), and the disturbance
variable at `(i, j)` is fixed to 0 exactly when every fine time point
mapping to sample point `j` has the original constraint inactive. -/
theorem activate_disturbed_mirrors_original {σ : Type} (time spts : List ℚ)
    (cons : List (ℚ → ConData σ)) (i : ℕ) (hi : i < cons.length)
    (t j : ℚ) :
    ((activate_disturbed_constraints_based_on_original_constraints time spts
        cons).1 i t = ((cons.get ⟨i, hi⟩) t).active) ∧
    ((activate_disturbed_constraints_based_on_original_constraints time spts
        cons).2 i j = true ↔
      ∀ t2 ∈ time, (curr_sample_point t2 spts).getD 0 = j →
        ((cons.get ⟨i, hi⟩) t2).active = false) := by
  constructor
  · simp only [activate_disturbed_constraints_based_on_original_constraints]
    rw [getD_fun_eq_get cons i hi]
  · simp only [activate_disturbed_constraints_based_on_original_constraints,
      getD_fun_eq_get cons i hi, List.all_eq_true]
    constructor
    · intro h t2 ht2 hcsp
      have h3 := h t2 ht2
      simp only [Bool.or_eq_true, Bool.not_eq_true', decide_eq_false_iff_not]
        at h3
      rcases h3 with h3 | h3
      · exact absurd hcsp h3
      · exact h3
    · intro h t2 ht2
      simp only [Bool.or_eq_true, Bool.not_eq_true', decide_eq_false_iff_not]
      by_cases hcsp : (curr_sample_point t2 spts).getD 0 = j
      · exact Or.inr (h t2 ht2 hcsp)
      · exact Or.inl hcsp

/-- Witness for C2: the repository's activation scenario — `c3` deactivated
at times 1 and 2 only; at `(1, 1)` the disturbed constraint mirrors the
inactive original, and the fixing condition at sample point 2 holds. -/
theorem activate_disturbed_mirrors_original_witness :
    ((activate_disturbed_constraints_based_on_original_constraints
        [0, 1, 2, 3, 4] [0, 2, 4] [exCon2Off, exCon3]).1 1 1
      = (([exCon2Off, exCon3].get ⟨1, by decide⟩) 1).active) ∧
    ((activate_disturbed_constraints_based_on_original_constraints
        [0, 1, 2, 3, 4] [0, 2, 4] [exCon2Off, exCon3]).2 1 2 = true ↔
      ∀ t2 ∈ [(0 : ℚ), 1, 2, 3, 4],
        (curr_sample_point t2 [0, 2, 4]).getD 0 = 2 →
        (([exCon2Off, exCon3].get ⟨1, by decide⟩) t2).active = false) :=
  activate_disturbed_mirrors_original [0, 1, 2, 3, 4] [0, 2, 4]
    [exCon2Off, exCon3] 1 (by decide) 1 2

/-- C6: for every time point `t` not greater than the last sample point,
`curr_sample_point` returns the smallest sample point at or after `t`, and a
`t` equal to a sample point maps to itself. -/
theorem curr_sample_point_least (t : ℚ) (spts : List ℚ) (hne : spts ≠ [])
    (hlast : t ≤ spts.getLast hne) :
    ∃ s, curr_sample_point t spts = some s ∧ s ∈ spts ∧ t ≤ s ∧
      (∀ s2 ∈ spts, t ≤ s2 → s ≤ s2) ∧ (t ∈ spts → s = t) := by
  have hmem : spts.getLast hne ∈ spts.filter (fun s => decide (t ≤ s)) := by
    rw [List.mem_filter]
    exact ⟨List.getLast_mem hne, by simpa using hlast⟩
  haveI hanti : Std.Antisymm (fun a b : ℚ => a ≤ b) :=
    ⟨fun h h2 => le_antisymm h h2⟩
  cases hmin : (spts.filter (fun s => decide (t ≤ s))).min? with
  | none =>
    exact absurd (List.min?_eq_none_iff.mp hmin) (List.ne_nil_of_mem hmem)
  | some m =>
    have hm := (List.min?_eq_some_iff (le_refl) (fun a b => min_choice a b)
      (fun a b c => le_min_iff)).mp hmin
    have hmf := List.mem_filter.mp hm.1
    refine ⟨m, ?_, hmf.1, by simpa using hmf.2, ?_, ?_⟩
    · rw [curr_sample_point, hmin]
    · intro s2 hs2 hts2
      exact hm.2 s2 (List.mem_filter.mpr ⟨hs2, by simpa using hts2⟩)
    · intro htmem
      have h1 : m ≤ t := hm.2 t (List.mem_filter.mpr ⟨htmem, by simp⟩)
      exact le_antisymm h1 (by simpa using hmf.2)

/-- Witness for C6: the four concrete sample-point lookups of the spec
(1.5 and 3.9 written as the rationals 3/2 and 39/10), and the least-point
property instantiated at t = 39/10 over sample points [0, 2, 4]. -/
theorem curr_sample_point_least_witness :
    (curr_sample_point 0 [0, 2, 4] = some 0) ∧
    (curr_sample_point (mkRat 3 2) [0, 2, 4] = some 2) ∧
    (curr_sample_point 2 [0, 2, 4] = some 2) ∧
    (curr_sample_point (mkRat 39 10) [0, 2, 4] = some 4) ∧
    (∃ s, curr_sample_point (mkRat 39 10) [0, 2, 4] = some s ∧
      s ∈ [(0 : ℚ), 2, 4] ∧ mkRat 39 10 ≤ s ∧
      (∀ s2 ∈ [(0 : ℚ), 2, 4], mkRat 39 10 ≤ s2 → s ≤ s2) ∧
      (mkRat 39 10 ∈ [(0 : ℚ), 2, 4] → s = mkRat 39 10)) := by
  refine ⟨by decide, by decide, by decide, by decide, ?_⟩
  exact curr_sample_point_least (mkRat 39 10) [0, 2, 4] (by decide)
    (by decide)

end PyomoMPC
